import Mathlib

/-!
Verification of the dynamical-decoupling (DD) sequence-insertion engine
found under `qiskit/transpiler/passes/dynamical_decoupling/`.

The engine rewrites long idle periods (`Delay` operations) on a scheduled
per-qubit timeline into DD pulse sequences separated by shorter idles,
conserving the total elapsed duration on the lane.

The embedding below follows the source files:
  * `cpmg.py`    — `CPMGPass.run` (2020 snapshot, with eligibility check)
  * `udd.py`     — `UDDPass.run` (2020 snapshot, with eligibility check)
  * `uddpass.py` — `UDDPass.run` (2018 snapshot, no eligibility check)
  * `cdd.py`     — `CDDPass.__init__.build_sequence` and `CDDPass.run`
  * `cddpass.py` — `CDDPass.__init__` (tau_c / tau_step conflict check)
  * `ncddpass.py`, `nuddpass.py` — candidate collection and `min(durations)`

Modelling conventions.  Calibrated gate durations are integer numbers of
time-steps (`dt` units), as the timeline itself is; Python `//` and `%`
(floor division and mod, always used here with positive divisors) are
`Int.ediv` (the `/` of `ℤ` in Lean) and `Int.emod`, which agree with
floor division/mod for positive divisors; Python `int(x / 2)` truncates
toward zero and is `Int.div x 2`.  `for _ in range(count)` iterates
`count.toNat` times (zero times for negative `count`), as in Python.
The non-uniform UDD gap schedule is computed by the source from
`sin²`-formula breakpoints rounded to the nearest integer (Python
`round`, ties to even); it is embedded over the exact reals further down.
-/

/-- A DD pulse symbol: the X or Y identity-frame rotation. -/
inductive DDGate : Type
  | x : DDGate
  | y : DDGate
deriving DecidableEq, Repr

/-- One operation emitted into the rewritten timeline: an idle (`Delay(d)`)
or a pulse gate. -/
inductive Op : Type
  | delay (d : ℤ) : Op
  | gate (g : DDGate) : Op
deriving DecidableEq, Repr

/-- The execution duration of one operation on a lane whose calibrated
X-pulse takes `xd` steps and Y-pulse `yd` steps. -/
def opDuration (xd yd : ℤ) : Op → ℤ
  | Op.delay d => d
  | Op.gate DDGate.x => xd
  | Op.gate DDGate.y => yd

/-- Total duration of a list of emitted operations. -/
def totalDuration (xd yd : ℤ) (ops : List Op) : ℤ :=
  (ops.map (opDuration xd yd)).sum

namespace CPMG

/-- `cpmg.py` line 81: `tau_step_totals[qubit] = round(self.tau_c - 2 * gate_duration // self.dt)`
with the calibrated Y-pulse duration `p` in integer time-steps. -/
def tau_step_total (tau_c p : ℤ) : ℤ := tau_c - 2 * p

/-- One CPMG cycle as emitted by `cpmg.py` lines 115–121:
quarter idle, Y, half idle, Y, quarter idle. -/
def cycle (tst : ℤ) : List Op :=
  [Op.delay (tst / 4), Op.gate DDGate.y, Op.delay (tst / 2),
   Op.gate DDGate.y, Op.delay (tst / 4)]

/-- The expansion branch of `cpmg.py` lines 106–123 for one delay node of
duration `d` (the `else` branch of `run`). -/
def expand (tau_c p d : ℤ) : List Op :=
  let tst := tau_step_total tau_c p
  let count := d / tau_c
  let remainder := tst - 2 * (tst / 4) - tst / 2
  let parity : ℤ := if (d - count * (tau_c - remainder)) % 2 ≠ 0 then 1 else 0
  let new_delay := (d - count * (tau_c - remainder)) / 2
  [Op.delay new_delay] ++
    (List.replicate count.toNat (cycle tst)).flatten ++
    [Op.delay (new_delay + parity)]

/-- `cpmg.py` lines 98–123: rewrite of one `Delay` node of duration `d`
whose DAG ancestor count is `ancestors`.  Short or ineligible delays are
passed through unchanged (lines 102–104). -/
def rewriteDelay (tau_c p d : ℤ) (ancestors : ℕ) : List Op :=
  if tau_c > d ∨ ancestors ≤ 1 then [Op.delay d] else expand tau_c p d

end CPMG

namespace UDD

/-- The pulse/idle cycle of `udd.py` lines 132–136: `Delay(tau_steps[0])`,
then for each later gap a Y pulse followed by that gap. -/
def cycle (tau_steps : List ℤ) : List Op :=
  match tau_steps with
  | [] => []
  | t0 :: rest => Op.delay t0 :: (rest.map (fun t => [Op.gate DDGate.y, Op.delay t])).flatten

/-- The expansion branch of `udd.py` lines 120–139 for one delay node:
`udd_duration = tau_c - N·p` (line 84), `count = d // tau_c`,
`remainder = udd_duration - sum(tau_steps)`, `new_delay = int(R / 2)`
(truncation), parity from `R % 2`; zero-length leading/trailing idles
are omitted (lines 128, 138). -/
def expand (tau_c p : ℤ) (N : ℕ) (tau_steps : List ℤ) (d : ℤ) : List Op :=
  let udd_duration := tau_c - (N : ℤ) * p
  let count := d / tau_c
  let remainder := udd_duration - tau_steps.sum
  let R := d - count * tau_c + count * remainder
  let parity : ℤ := if R % 2 ≠ 0 then 1 else 0
  let new_delay := Int.tdiv R 2
  (if new_delay ≠ 0 then [Op.delay new_delay] else []) ++
    (List.replicate count.toNat (cycle tau_steps)).flatten ++
    (if new_delay ≠ 0 ∨ parity ≠ 0 then [Op.delay (new_delay + parity)] else [])

/-- `udd.py` lines 107–139: rewrite of one `Delay` node; short or
ineligible delays are passed through unchanged (line 116). -/
def rewriteDelay (tau_c p : ℤ) (N : ℕ) (tau_steps : List ℤ) (d : ℤ)
    (ancestors : ℕ) : List Op :=
  if tau_c > d ∨ ancestors ≤ 1 then [Op.delay d] else expand tau_c p N tau_steps d

end UDD

namespace UDDPass2018

/-- The expansion branch of `uddpass.py` lines 87–104: identical
arithmetic to `udd.py` but the leading and trailing delays are always
emitted (lines 95, 104). -/
def expand (tau_c p : ℤ) (N : ℕ) (tau_steps : List ℤ) (d : ℤ) : List Op :=
  let udd_duration := tau_c - (N : ℤ) * p
  let count := d / tau_c
  let remainder := udd_duration - tau_steps.sum
  let R := d - count * tau_c + count * remainder
  let parity : ℤ := if R % 2 ≠ 0 then 1 else 0
  let new_delay := Int.tdiv R 2
  [Op.delay new_delay] ++
    (List.replicate count.toNat (UDD.cycle tau_steps)).flatten ++
    [Op.delay (new_delay + parity)]

/-- `uddpass.py` lines 83–107: rewrite of one `Delay` node.  The 2018
snapshot tests only `self.tau_c <= delay_duration` (line 87); the DAG
ancestor count of the node is never consulted, so the `ancestors`
argument is (faithfully) unused. -/
def rewriteDelay (tau_c p : ℤ) (N : ℕ) (tau_steps : List ℤ) (d : ℤ)
    (_ancestors : ℕ) : List Op :=
  if tau_c ≤ d then expand tau_c p N tau_steps d else [Op.delay d]

end UDDPass2018

namespace CDD

/-- `cdd.py` lines 55–63 (`build_sequence`), for order `N ≥ 1`:
`S(1) = [X, Y, X, Y]` and
`S(k) = [X] + S(k-1) + [Y] + S(k-1) + [X] + S(k-1) + [Y] + S(k-1)`.
The Python function never terminates for `N ≤ 0`; the `0` case below is
junk and is never used by a claim (see `buildSequenceFuel`). -/
def buildSequence : ℕ → List DDGate
  | 0 => []
  | 1 => [DDGate.x, DDGate.y, DDGate.x, DDGate.y]
  | n + 2 =>
      [DDGate.x] ++ buildSequence (n + 1) ++ [DDGate.y] ++ buildSequence (n + 1) ++
        [DDGate.x] ++ buildSequence (n + 1) ++ [DDGate.y] ++ buildSequence (n + 1)

/-- `build_sequence` exactly as Python executes it on an arbitrary integer
order: the only exit from the recursion is `N == 1`, and each level
recurses on `N - 1` (all four recursive calls coincide, the function
being pure), so the call diverges for `N ≤ 0`.  `fuel` bounds the
recursion depth; `none` means the recursion did not finish within
`fuel` levels. -/
def buildSequenceFuel : ℕ → ℤ → Option (List DDGate)
  | 0, _ => none
  | fuel + 1, n =>
      if n = 1 then some [DDGate.x, DDGate.y, DDGate.x, DDGate.y]
      else
        match buildSequenceFuel fuel (n - 1) with
        | none => none
        | some s =>
            some ([DDGate.x] ++ s ++ [DDGate.y] ++ s ++ [DDGate.x] ++ s ++ [DDGate.y] ++ s)

/-- `cdd.py` lines 97–98: per-lane cycle duration
`tau_cs[qubit] = len(cdd_sequence) // 2 * round(2 * tau_step_dt + gate_duration / dt)`,
where `gate_duration` is the calibrated X-pulse plus Y-pulse duration. -/
def tau_cFor (N : ℕ) (tau_step xd yd : ℤ) : ℤ :=
  ((buildSequence N).length : ℤ) / 2 * (2 * tau_step + (xd + yd))

/-- The pulse/idle body of `cdd.py` lines 140–153: the gates of all
`count` repetitions in order, a `Delay(tau_step)` before every gate
except the very first (the `first` flag is never reset between
repetitions). -/
def body (tau_step : ℤ) (gates : List DDGate) : List Op :=
  match gates with
  | [] => []
  | g :: rest => Op.gate g :: (rest.map (fun g2 => [Op.delay tau_step, Op.gate g2])).flatten

/-- The expansion branch of `cdd.py` lines 131–156 for one delay node. -/
def expand (N : ℕ) (tau_step xd yd d : ℤ) : List Op :=
  let tau_c := tau_cFor N tau_step xd yd
  let count := d / tau_c
  let R := d - count * tau_c + tau_step
  let parity : ℤ := if R % 2 ≠ 0 then 1 else 0
  let new_delay := R / 2
  (if new_delay ≠ 0 then [Op.delay new_delay] else []) ++
    body tau_step (List.replicate count.toNat (buildSequence N)).flatten ++
    (if new_delay ≠ 0 ∨ parity ≠ 0 then [Op.delay (new_delay + parity)] else [])

/-- `cdd.py` lines 118–156: rewrite of one `Delay` node; short or
ineligible delays are passed through unchanged (line 127). -/
def rewriteDelay (N : ℕ) (tau_step xd yd d : ℤ) (ancestors : ℕ) : List Op :=
  if tau_cFor N tau_step xd yd > d ∨ ancestors ≤ 1 then [Op.delay d]
  else expand N tau_step xd yd d

end CDD

/-- `udd.py` lines 48–52 (`UDDPass.__init__`): the initializer performs no
validation of the order; `tau_c` defaults to `1000 * N` when the `tau_c`
argument is `None` or `0` (Python `1000 * self.N if not tau_c else tau_c`). -/
def uddInitTauC (N : ℤ) (tau_c : Option ℤ) : ℤ :=
  match tau_c with
  | none => 1000 * N
  | some t => if t = 0 then 1000 * N else t

/-- `cddpass.py` lines 24–46 (`CDDPass.__init__`): supplying `tau_c`
together with a `tau_step` different from its default `10` raises at
setup, before `run` is ever called. -/
def cddpassInitCheck (tau_c : Option ℤ) (tau_step : ℚ) : Except String Unit :=
  if tau_c ≠ none ∧ tau_step ≠ 10 then
    Except.error "Only either tau_c or tau_step can be specified, not both."
  else Except.ok ()

/-- The per-node data consulted by `ncddpass.py`/`nuddpass.py` during the
candidate scan: whether the node is a `Delay`, its duration, its DAG
ancestor count, whether its last predecessor is a `CXGate`, and whether
its first successor is a `Delay` (and that successor's duration). -/
structure TLNode : Type where
  isDelay : Bool
  duration : ℤ
  ancestors : ℕ
  predIsCX : Bool
  succIsDelay : Bool
  succDuration : ℤ
deriving DecidableEq, Repr

/-- `ncddpass.py` lines 116–117 / `nuddpass.py` lines 119–120: a node joins
the candidate list when it is a `Delay`, has more than one ancestor, and
its last predecessor is a `CXGate`. -/
def contextEligible (n : TLNode) : Bool :=
  n.isDelay && decide (1 < n.ancestors) && n.predIsCX

/-- `ncddpass.py` lines 118–121 / `nuddpass.py` lines 121–124: the
candidate duration merges the immediately following `Delay`, if any. -/
def contextDuration (n : TLNode) : ℤ :=
  if n.succIsDelay then n.duration + n.succDuration else n.duration

/-- `ncddpass.py` lines 111–124: the collected `durations` list. -/
def ncddDurations (nodes : List TLNode) : List ℤ :=
  (nodes.filter contextEligible).map contextDuration

/-- `nuddpass.py` lines 114–127: the collected `durations` list
(identical collection logic to `ncddpass.py`). -/
def nuddDurations (nodes : List TLNode) : List ℤ :=
  (nodes.filter contextEligible).map contextDuration

/-- Python `min` on a list: raises `ValueError` on an empty sequence. -/
def pyMin : List ℤ → Except String ℤ
  | [] => Except.error "min() arg is an empty sequence"
  | x :: xs => Except.ok (xs.foldl min x)

/-- `ncddpass.py` line 126: `duration = min(durations)` — the first
computation of `run` whose result the rest of the rewrite depends on. -/
def ncddMinDuration (nodes : List TLNode) : Except String ℤ :=
  pyMin (ncddDurations nodes)

/-- `nuddpass.py` line 129: `duration = min(durations)`. -/
def nuddMinDuration (nodes : List TLNode) : Except String ℤ :=
  pyMin (nuddDurations nodes)

/-! ### Arithmetic and list helpers -/

theorem sum_map_flatten_replicate (f : Op → ℤ) (n : ℕ) (l : List Op) :
    (((List.replicate n l).flatten).map f).sum = n * ((l.map f).sum) := by
  induction n with
  | zero => simp
  | succ k ih =>
      simp only [List.replicate_succ, List.flatten_cons, List.map_append,
        List.sum_append, ih, Nat.cast_succ]
      ring

theorem tdiv_nonneg_eq_ediv {a b : ℤ} (h : 0 ≤ a) (h2 : 0 ≤ b) :
    Int.tdiv a b = a / b := by
  match a, h with
  | Int.ofNat m, _ =>
    match b, h2 with
    | Int.ofNat n, _ => rfl

theorem ite_emod_two (R : ℤ) : (if R % 2 ≠ 0 then (1 : ℤ) else 0) = R % 2 := by
  rcases Int.emod_two_eq R with h | h <;> simp [h]

theorem cpmg_cycle_sum (xd p tst : ℤ) :
    ((CPMG.cycle tst).map (opDuration xd p)).sum = 2 * (tst / 4) + tst / 2 + 2 * p := by
  simp [CPMG.cycle, opDuration]
  ring

/-! ### Duration conservation (per family) -/

theorem cpmg_rewrite_total (xd tau_c p d : ℤ) (a : ℕ) (hpos : 0 < tau_c) :
    totalDuration xd p (CPMG.rewriteDelay tau_c p d a) = d := by
  unfold CPMG.rewriteDelay
  split
  · simp [totalDuration, opDuration]
  · rename_i hcond
    push_neg at hcond
    obtain ⟨hle, _⟩ := hcond
    have hd0 : (0 : ℤ) ≤ d := le_trans hpos.le hle
    have hc0 : 0 ≤ d / tau_c := Int.ediv_nonneg hd0 hpos.le
    unfold CPMG.expand
    simp only [totalDuration, List.map_append, List.sum_append,
      sum_map_flatten_replicate, cpmg_cycle_sum, List.map_cons, List.map_nil,
      List.sum_cons, List.sum_nil, opDuration, Int.toNat_of_nonneg hc0,
      ite_emod_two]
    have hmod := Int.emod_add_ediv
      (d - d / tau_c * (tau_c - (CPMG.tau_step_total tau_c p
        - 2 * (CPMG.tau_step_total tau_c p / 4) - CPMG.tau_step_total tau_c p / 2))) 2
    unfold CPMG.tau_step_total at *
    ring_nf at hmod ⊢
    linarith

theorem udd_tail_sum (xd p : ℤ) (rest : List ℤ) :
    (((rest.map (fun t => [Op.gate DDGate.y, Op.delay t])).flatten).map
        (opDuration xd p)).sum = rest.sum + rest.length * p := by
  induction rest with
  | nil => simp
  | cons r rs ih =>
      simp only [List.map_cons, List.flatten_cons, List.map_append, List.sum_append, ih,
        List.sum_cons, List.length_cons, List.map_nil, List.sum_nil, opDuration,
        Nat.cast_succ]
      ring

theorem udd_cycle_sum (xd p t0 : ℤ) (rest : List ℤ) :
    ((UDD.cycle (t0 :: rest)).map (opDuration xd p)).sum
      = (t0 :: rest).sum + rest.length * p := by
  simp only [UDD.cycle, List.map_cons, List.sum_cons, udd_tail_sum, opDuration]
  ring

theorem sum_ite_delay (xd p v : ℤ) (c : Prop) [Decidable c] (h : ¬c → v = 0) :
    ((if c then [Op.delay v] else []).map (opDuration xd p)).sum = v := by
  split
  · simp [opDuration]
  · simpa using (h (by assumption)).symm

theorem udd_rewrite_total (xd tau_c p d : ℤ) (N : ℕ) (ts : List ℤ) (a : ℕ)
    (hpos : 0 < tau_c) (hlen : ts.length = N + 1) (hsum : ts.sum = tau_c - N * p) :
    totalDuration xd p (UDD.rewriteDelay tau_c p N ts d a) = d := by
  unfold UDD.rewriteDelay
  split
  · simp [totalDuration, opDuration]
  · rename_i hcond
    push_neg at hcond
    obtain ⟨hle, _⟩ := hcond
    have hd0 : (0 : ℤ) ≤ d := le_trans hpos.le hle
    have hc0 : 0 ≤ d / tau_c := Int.ediv_nonneg hd0 hpos.le
    obtain ⟨t0, rest, rfl⟩ : ∃ t0 rest, ts = t0 :: rest := by
      cases ts with
      | nil => simp at hlen
      | cons t0 rest => exact ⟨t0, rest, rfl⟩
    have hrest : (rest.length : ℤ) = (N : ℤ) := by
      have : rest.length = N := by simpa using hlen
      exact_mod_cast this
    unfold UDD.expand
    have hrem : (tau_c - (N : ℤ) * p) - (t0 :: rest).sum = 0 := by
      rw [hsum]; ring
    simp only [hrem, mul_zero, add_zero]
    have hR0 : 0 ≤ d - d / tau_c * tau_c := by
      have := Int.emod_add_ediv d tau_c
      have hnn := Int.emod_nonneg d (ne_of_gt hpos)
      linarith
    rw [tdiv_nonneg_eq_ediv hR0 (by norm_num)]
    set R := d - d / tau_c * tau_c with hRdef
    simp only [totalDuration, List.map_append, List.sum_append,
      sum_map_flatten_replicate, udd_cycle_sum, Int.toNat_of_nonneg hc0,
      ite_emod_two]
    rw [sum_ite_delay _ _ _ _ (by intro h; simpa using h),
        sum_ite_delay _ _ _ _ ?hz]
    case hz =>
      intro h
      push_neg at h
      obtain ⟨h1, h2⟩ := h
      have h1' : R / 2 = 0 := by simpa using h1
      have h2' : R % 2 = 0 := by
        rcases Int.emod_two_eq R with h | h
        · exact h
        · simp [h] at h2
      rw [h1', h2']
      ring
    have hmod := Int.emod_add_ediv R 2
    have hsum2 : (t0 :: rest).sum + (rest.length : ℤ) * p = tau_c := by
      rw [hsum, hrest]; ring
    rw [hsum2]
    linarith

theorem cdd_body_cons_cons (ts : ℤ) (g r : DDGate) (rs : List DDGate) :
    CDD.body ts (g :: r :: rs) = Op.gate g :: Op.delay ts :: CDD.body ts (r :: rs) := rfl

theorem cdd_body_sum (xd yd ts : ℤ) (g : DDGate) (rest : List DDGate) :
    ((CDD.body ts (g :: rest)).map (opDuration xd yd)).sum
      = ((g :: rest).count DDGate.x : ℤ) * xd + ((g :: rest).count DDGate.y : ℤ) * yd
          + (rest.length : ℤ) * ts := by
  induction rest generalizing g with
  | nil =>
      cases g <;> simp [CDD.body, opDuration, List.count_cons, List.count_nil]
  | cons r rs ih =>
      rw [cdd_body_cons_cons]
      simp only [List.map_cons, List.sum_cons, ih r, List.count_cons, List.length_cons]
      cases g <;> simp [opDuration] <;> ring

theorem count_flatten_replicate (n : ℕ) (l : List DDGate) (g : DDGate) :
    ((List.replicate n l).flatten).count g = n * l.count g := by
  induction n with
  | zero => simp
  | succ k ih =>
      simp [List.replicate_succ, List.count_append, ih, Nat.succ_mul]
      omega

theorem length_flatten_replicate (n : ℕ) (l : List DDGate) :
    ((List.replicate n l).flatten).length = n * l.length := by
  induction n with
  | zero => simp
  | succ k ih =>
      simp [List.replicate_succ, ih, Nat.succ_mul]
      omega

theorem cdd_seq_counts (N : ℕ) (h : 1 ≤ N) :
    2 * (CDD.buildSequence N).count DDGate.x = (CDD.buildSequence N).length ∧
    2 * (CDD.buildSequence N).count DDGate.y = (CDD.buildSequence N).length := by
  induction N with
  | zero => omega
  | succ n ih =>
      match n, ih with
      | 0, _ => decide
      | m + 1, ih =>
          have ⟨hx, hy⟩ := ih (by omega)
          constructor <;>
            · show 2 * (CDD.buildSequence (m + 2)).count _ = (CDD.buildSequence (m + 2)).length
              simp only [CDD.buildSequence, List.count_append, List.length_append,
                List.count_cons, List.count_nil, List.length_cons, List.length_nil]
              simp
              omega

theorem cdd_seq_len_pos (N : ℕ) (h : 1 ≤ N) : 1 ≤ (CDD.buildSequence N).length := by
  match N, h with
  | 1, _ => decide
  | m + 2, _ => simp [CDD.buildSequence]

theorem cdd_tau_cFor_eq (N : ℕ) (ts xd yd : ℤ) (h : 1 ≤ N) :
    CDD.tau_cFor N ts xd yd
      = ((CDD.buildSequence N).count DDGate.x : ℤ) * xd
        + ((CDD.buildSequence N).count DDGate.y : ℤ) * yd
        + ((CDD.buildSequence N).length : ℤ) * ts := by
  obtain ⟨hx, hy⟩ := cdd_seq_counts N h
  unfold CDD.tau_cFor
  have hL : ((CDD.buildSequence N).length : ℤ)
      = 2 * ((CDD.buildSequence N).count DDGate.x : ℤ) := by exact_mod_cast hx.symm
  have hcxy : ((CDD.buildSequence N).count DDGate.y : ℤ)
      = ((CDD.buildSequence N).count DDGate.x : ℤ) := by omega
  rw [hL, hcxy, Int.mul_ediv_cancel_left _ (by norm_num)]
  ring

theorem cdd_rewrite_total (tau_step xd yd d : ℤ) (N : ℕ) (a : ℕ)
    (hN : 1 ≤ N) (hpos : 0 < CDD.tau_cFor N tau_step xd yd) :
    totalDuration xd yd (CDD.rewriteDelay N tau_step xd yd d a) = d := by
  unfold CDD.rewriteDelay
  split
  · simp [totalDuration, opDuration]
  · rename_i hcond
    push_neg at hcond
    obtain ⟨hle, _⟩ := hcond
    set tc := CDD.tau_cFor N tau_step xd yd with htc
    have hc1 : 1 ≤ d / tc := by
      rw [Int.le_ediv_iff_mul_le hpos]
      simpa using hle
    have hc0 : 0 ≤ d / tc := by omega
    set c := d / tc with hcdef
    set seq := CDD.buildSequence N with hseq
    set gates := (List.replicate c.toNat seq).flatten with hgates
    have hgx : (gates.count DDGate.x : ℤ) = c * (seq.count DDGate.x : ℤ) := by
      rw [hgates, count_flatten_replicate]
      push_cast [Int.toNat_of_nonneg hc0]
      ring
    have hgy : (gates.count DDGate.y : ℤ) = c * (seq.count DDGate.y : ℤ) := by
      rw [hgates, count_flatten_replicate]
      push_cast [Int.toNat_of_nonneg hc0]
      ring
    have hglen : (gates.length : ℤ) = c * (seq.length : ℤ) := by
      rw [hgates, length_flatten_replicate]
      push_cast [Int.toNat_of_nonneg hc0]
      ring
    have hgpos : gates ≠ [] := by
      have h1 : (1 : ℤ) ≤ (seq.length : ℤ) := by exact_mod_cast cdd_seq_len_pos N hN
      intro hnil
      rw [hnil] at hglen
      simp at hglen
      rcases hglen with h0 | h0
      · omega
      · rw [h0] at h1
        simp at h1
    obtain ⟨g, rest, hgr⟩ := List.exists_cons_of_ne_nil hgpos
    have hrest : (rest.length : ℤ) = c * (seq.length : ℤ) - 1 := by
      rw [← hglen, hgr]
      push_cast [List.length_cons]
      ring
    unfold CDD.expand
    dsimp only
    rw [← htc, ← hcdef, ← hseq, ← hgates, hgr]
    simp only [totalDuration, List.map_append, List.sum_append, cdd_body_sum,
      ite_emod_two]
    rw [sum_ite_delay _ _ _ _ (by intro h; simpa using h),
        sum_ite_delay _ _ _ _ ?hz]
    case hz =>
      intro h
      push_neg at h
      obtain ⟨h1, h2⟩ := h
      have h1' : (d - c * tc + tau_step) / 2 = 0 := by simpa using h1
      have h2' : (d - c * tc + tau_step) % 2 = 0 := by
        rcases Int.emod_two_eq (d - c * tc + tau_step) with h | h
        · exact h
        · simp [h] at h2
      rw [h1', h2']
      ring
    rw [← hgr]
    have hmod := Int.emod_add_ediv (d - c * tc + tau_step) 2
    have htval := cdd_tau_cFor_eq N tau_step xd yd hN
    rw [← htc, ← hseq] at htval
    rw [hgx, hgy, hrest]
    nlinarith [hmod, htval]

/-! ### Leading/trailing idle extraction and code-level remainder values -/

/-- The duration of the first emitted operation when it is an idle,
`0` when the expansion starts directly with a pulse. -/
def leadingIdle (ops : List Op) : ℤ :=
  match ops.head? with
  | some (Op.delay d) => d
  | _ => 0

/-- The duration of the last emitted operation when it is an idle,
`0` when the expansion ends directly with a pulse. -/
def trailingIdle (ops : List Op) : ℤ :=
  match ops.getLast? with
  | some (Op.delay d) => d
  | _ => 0

namespace CPMG

/-- `cpmg.py` line 108: the flooring loss of one cycle,
`remainder = tau_step_total - 2 * (tau_step_total // 4) - tau_step_total // 2`. -/
def remainder (tau_c p : ℤ) : ℤ :=
  tau_step_total tau_c p - 2 * (tau_step_total tau_c p / 4) - tau_step_total tau_c p / 2

/-- The quantity split between the leading and trailing idles by
`cpmg.py` lines 109–110: `delay_duration - count * (tau_c - remainder)`. -/
def leftover (tau_c p d : ℤ) : ℤ :=
  d - d / tau_c * (tau_c - remainder tau_c p)

end CPMG

namespace CDD

/-- The quantity split between the leading and trailing idles by
`cdd.py` lines 133–135: `delay_duration - count * tau_c + tau_step_dt`. -/
def leftover (N : ℕ) (tau_step xd yd d : ℤ) : ℤ :=
  d - d / tau_cFor N tau_step xd yd * tau_cFor N tau_step xd yd + tau_step

end CDD

theorem cdd_body_getLast_gate (ts : ℤ) (g : DDGate) (rest : List DDGate) :
    ∃ g2, (CDD.body ts (g :: rest)).getLast? = some (Op.gate g2) := by
  induction rest generalizing g with
  | nil => exact ⟨g, rfl⟩
  | cons r rs ih =>
      obtain ⟨g2, hg2⟩ := ih r
      refine ⟨g2, ?_⟩
      rw [cdd_body_cons_cons]
      have hshape : CDD.body ts (r :: rs)
          = Op.gate r :: ((rs.map (fun g3 => [Op.delay ts, Op.gate g3])).flatten) := rfl
      rw [List.getLast?_cons_cons, hshape, List.getLast?_cons_cons, ← hshape]
      exact hg2

theorem cpmg_leading (tau_c p d : ℤ) :
    leadingIdle (CPMG.expand tau_c p d) = CPMG.leftover tau_c p d / 2 := by
  simp [CPMG.expand, leadingIdle, CPMG.leftover, CPMG.remainder, CPMG.tau_step_total]

theorem cpmg_trailing (tau_c p d : ℤ) :
    trailingIdle (CPMG.expand tau_c p d)
      = CPMG.leftover tau_c p d / 2 + CPMG.leftover tau_c p d % 2 := by
  unfold CPMG.expand trailingIdle
  dsimp only
  rw [List.getLast?_concat]
  simp only [ite_emod_two]
  simp [CPMG.leftover, CPMG.remainder, CPMG.tau_step_total]

theorem cdd_leading (tau_step xd yd d : ℤ) (N : ℕ)
    (hN : 1 ≤ N) (hpos : 0 < CDD.tau_cFor N tau_step xd yd)
    (hle : CDD.tau_cFor N tau_step xd yd ≤ d) :
    leadingIdle (CDD.expand N tau_step xd yd d) = CDD.leftover N tau_step xd yd d / 2 := by
  have hc1 : 1 ≤ d / CDD.tau_cFor N tau_step xd yd := by
    rw [Int.le_ediv_iff_mul_le hpos]
    simpa using hle
  unfold CDD.expand
  dsimp only
  set R := CDD.leftover N tau_step xd yd d with hR
  have hRterm : d - d / CDD.tau_cFor N tau_step xd yd * CDD.tau_cFor N tau_step xd yd
      + tau_step = R := rfl
  rw [hRterm]
  by_cases h : R / 2 ≠ 0
  · rw [if_pos h]
    simp [leadingIdle]
  · rw [if_neg h]
    push_neg at h
    rw [List.nil_append]
    have hgpos : (List.replicate (d / CDD.tau_cFor N tau_step xd yd).toNat
        (CDD.buildSequence N)).flatten ≠ [] := by
      have hlen : 1 ≤ (CDD.buildSequence N).length := cdd_seq_len_pos N hN
      intro hnil
      have hlen2 := congrArg List.length hnil
      rw [length_flatten_replicate] at hlen2
      simp only [List.length_nil, Nat.mul_eq_zero] at hlen2
      rcases hlen2 with h0 | h0
      · omega
      · omega
    obtain ⟨g, rest, hgr⟩ := List.exists_cons_of_ne_nil hgpos
    rw [hgr]
    have hshape : CDD.body tau_step (g :: rest)
        = Op.gate g :: ((rest.map (fun g3 => [Op.delay tau_step, Op.gate g3])).flatten) := rfl
    rw [hshape]
    simp [leadingIdle, h]

theorem cdd_trailing (tau_step xd yd d : ℤ) (N : ℕ)
    (hN : 1 ≤ N) (hpos : 0 < CDD.tau_cFor N tau_step xd yd)
    (hle : CDD.tau_cFor N tau_step xd yd ≤ d) :
    trailingIdle (CDD.expand N tau_step xd yd d)
      = CDD.leftover N tau_step xd yd d / 2 + CDD.leftover N tau_step xd yd d % 2 := by
  have hc1 : 1 ≤ d / CDD.tau_cFor N tau_step xd yd := by
    rw [Int.le_ediv_iff_mul_le hpos]
    simpa using hle
  unfold CDD.expand
  dsimp only
  set R := CDD.leftover N tau_step xd yd d with hR
  have hRterm : d - d / CDD.tau_cFor N tau_step xd yd * CDD.tau_cFor N tau_step xd yd
      + tau_step = R := rfl
  rw [hRterm]
  simp only [ite_emod_two]
  by_cases h1 : R / 2 = 0
  · rw [if_neg (by simpa using h1)]
    by_cases h2 : R % 2 = 0
    · rw [if_neg (by push_neg; exact ⟨h1, h2⟩), List.append_nil, List.nil_append]
      have hgpos : (List.replicate (d / CDD.tau_cFor N tau_step xd yd).toNat
          (CDD.buildSequence N)).flatten ≠ [] := by
        intro hnil
        have hlen2 := congrArg List.length hnil
        rw [length_flatten_replicate] at hlen2
        simp only [List.length_nil, Nat.mul_eq_zero] at hlen2
        rcases hlen2 with h0 | h0
        · omega
        · have := cdd_seq_len_pos N hN
          omega
      obtain ⟨g, rest, hgr⟩ := List.exists_cons_of_ne_nil hgpos
      rw [hgr]
      obtain ⟨g2, hg2⟩ := cdd_body_getLast_gate tau_step g rest
      simp [trailingIdle, hg2, h1, h2]
    · rw [if_pos (Or.inr h2)]
      simp only [trailingIdle]
      rw [List.getLast?_concat]
  · rw [if_pos h1, if_pos (Or.inl h1)]
    simp only [trailingIdle]
    rw [List.getLast?_concat]

/-! ### The UDD sin-squared gap schedule over the exact reals -/

/-- Python's `round`: round to the nearest integer, ties to the even
integer (banker's rounding), as used by `udd.py` line 86. -/
noncomputable def pyround (x : ℝ) : ℤ :=
  if Int.fract x = 1 / 2 then (if Even ⌊x⌋ then ⌊x⌋ else ⌊x⌋ + 1) else round x

theorem pyround_intCast (n : ℤ) : pyround (n : ℝ) = n := by
  unfold pyround
  rw [if_neg (by rw [Int.fract_intCast]; norm_num)]
  exact round_intCast n

theorem round_int_sub_of_fract_ne_half (T : ℤ) (x : ℝ) (h : Int.fract x ≠ 1 / 2) :
    round ((T : ℝ) - x) = T - round x := by
  have hf0 : (0 : ℝ) ≤ Int.fract x := Int.fract_nonneg x
  have hf1 : Int.fract x < 1 := Int.fract_lt_one x
  rcases lt_or_gt_of_ne h with hlt | hgt
  · -- fract x < 1/2 : round x = ⌊x⌋ and round (T - x) = T - ⌊x⌋
    have h1 : round x = ⌊x⌋ := by
      rw [round_eq, Int.floor_eq_iff]
      constructor <;> nlinarith [Int.floor_add_fract x]
    have h2 : round ((T : ℝ) - x) = T - ⌊x⌋ := by
      rw [round_eq, Int.floor_eq_iff]
      push_cast
      constructor <;> nlinarith [Int.floor_add_fract x]
    rw [h1, h2]
  · -- fract x > 1/2 : round x = ⌊x⌋ + 1 and round (T - x) = T - ⌊x⌋ - 1
    have h1 : round x = ⌊x⌋ + 1 := by
      rw [round_eq, Int.floor_eq_iff]
      push_cast
      constructor <;> nlinarith [Int.floor_add_fract x]
    have h2 : round ((T : ℝ) - x) = T - ⌊x⌋ - 1 := by
      rw [round_eq, Int.floor_eq_iff]
      push_cast
      constructor <;> nlinarith [Int.floor_add_fract x]
    rw [h1, h2]
    ring

theorem pyround_int_sub (T : ℤ) (x : ℝ) (h : Int.fract x = 1 / 2 → Even T) :
    pyround ((T : ℝ) - x) = T - pyround x := by
  by_cases htie : Int.fract x = 1 / 2
  · -- tie case: x = m + 1/2 with m = ⌊x⌋, and T is even
    have hT := h htie
    have hx : x = (⌊x⌋ : ℝ) + 1 / 2 := by
      have := Int.floor_add_fract x
      rw [htie] at this
      linarith
    obtain ⟨m, hm⟩ : ∃ m : ℤ, x = (m : ℝ) + 1 / 2 := ⟨⌊x⌋, hx⟩
    have hfm : ⌊x⌋ = m := by
      rw [hm, Int.floor_int_add]
      norm_num
    have hfloorTx : ⌊(T : ℝ) - x⌋ = T - m - 1 := by
      have heq : (T : ℝ) - x = ((T - m - 1 : ℤ) : ℝ) + 1 / 2 := by
        rw [hm]
        push_cast
        ring
      rw [heq, Int.floor_int_add]
      norm_num
    have hfrTx : Int.fract ((T : ℝ) - x) = 1 / 2 := by
      rw [Int.fract, hfloorTx, hm]
      push_cast
      ring
    unfold pyround
    rw [if_pos hfrTx, if_pos htie, hfloorTx, hfm]
    rw [Int.even_iff] at hT
    by_cases hpar : Even m
    · rw [if_pos hpar]
      rw [Int.even_iff] at hpar
      rw [if_neg (by rw [Int.even_iff]; omega)]
      omega
    · rw [if_neg hpar]
      rw [Int.not_even_iff] at hpar
      rw [if_pos (by rw [Int.even_iff]; omega)]
      omega
  · -- no tie: plain nearest rounding on both sides
    by_cases hint : Int.fract x = 0
    · -- x is an integer
      have hx : x = (⌊x⌋ : ℝ) := by
        have := Int.floor_add_fract x
        rw [hint] at this
        linarith
      rw [hx]
      have heq : (T : ℝ) - (⌊x⌋ : ℝ) = ((T - ⌊x⌋ : ℤ) : ℝ) := by push_cast; ring
      rw [heq, pyround_intCast, pyround_intCast]
    · have htie2 : Int.fract ((T : ℝ) - x) ≠ 1 / 2 := by
        have hneg : Int.fract (-x) = 1 - Int.fract x := Int.fract_neg hint
        have heq : Int.fract ((T : ℝ) - x) = 1 - Int.fract x := by
          rw [sub_eq_add_neg, Int.fract_int_add, hneg]
        rw [heq]
        intro hcon
        apply htie
        linarith
      unfold pyround
      rw [if_neg htie, if_neg htie2]
      exact round_int_sub_of_fract_ne_half T x htie

open Complex in
theorem isIntegral_two_cos_pi_div (j M : ℕ) (hM : 0 < M) :
    IsIntegral ℤ ((2 * Real.cos (Real.pi * j / M) : ℝ) : ℂ) := by
  set θ : ℝ := Real.pi * j / M with hθ
  set z : ℂ := Complex.exp ((θ : ℂ) * Complex.I) with hz
  have hMne : (M : ℂ) ≠ 0 := by
    exact_mod_cast Nat.cast_ne_zero.mpr (by omega)
  have hzpow : z ^ (2 * M) = 1 := by
    rw [hz, ← Complex.exp_nat_mul]
    have harg : (2 * M : ℕ) * ((θ : ℂ) * Complex.I) = (j : ℤ) * (2 * (Real.pi : ℂ) * Complex.I) := by
      rw [hθ]
      push_cast
      calc (2 * (M : ℂ)) * ((Real.pi : ℂ) * (j : ℂ) / (M : ℂ) * Complex.I)
          = ((Real.pi : ℂ) * (j : ℂ) * Complex.I) * (2 * ((M : ℂ) / (M : ℂ))) := by ring
        _ = (j : ℂ) * (2 * (Real.pi : ℂ) * Complex.I) := by rw [div_self hMne]; ring
    rw [harg, Complex.exp_int_mul_two_pi_mul_I]
  have hzinvpow : z⁻¹ ^ (2 * M) = 1 := by
    rw [inv_pow, hzpow]
    norm_num
  have hint : ∀ w : ℂ, w ^ (2 * M) = 1 → IsIntegral ℤ w := by
    intro w hw
    refine ⟨Polynomial.X ^ (2 * M) - Polynomial.C 1, Polynomial.monic_X_pow_sub_C 1 (by omega), ?_⟩
    simp [Polynomial.eval₂_sub, Polynomial.eval₂_pow, hw]
  have hcos2 : ((2 * Real.cos θ : ℝ) : ℂ) = z + z⁻¹ := by
    rw [Complex.ofReal_mul, Complex.ofReal_cos]
    rw [Complex.cos, hz, ← Complex.exp_neg]
    push_cast
    ring_nf
  rw [hcos2]
  exact IsIntegral.add (hint z hzpow) (hint z⁻¹ hzinvpow)

theorem rat_two_cos_pi_div_is_int (j M : ℕ) (hM : 0 < M) (q : ℚ)
    (hq : (q : ℝ) = 2 * Real.cos (Real.pi * j / M)) : ∃ k : ℤ, (k : ℚ) = q := by
  haveI hne : Nonempty (GCDMonoid ℤ) := ⟨inferInstance⟩
  have h1 : IsIntegral ℤ ((q : ℝ) : ℂ) := by
    rw [hq]
    exact isIntegral_two_cos_pi_div j M hM
  have h2 : IsIntegral ℤ ((algebraMap ℚ ℂ).toIntAlgHom q) := by
    have : ((algebraMap ℚ ℂ).toIntAlgHom q) = ((q : ℝ) : ℂ) := by
      rw [RingHom.toIntAlgHom_coe]
      rw [eq_ratCast (algebraMap ℚ ℂ) q]
      norm_cast
    rwa [this]
  have h3 : IsIntegral ℤ q :=
    (isIntegral_algHom_iff (algebraMap ℚ ℂ).toIntAlgHom
      (by rw [RingHom.toIntAlgHom_coe]; exact (algebraMap ℚ ℂ).injective)).mp h2
  obtain ⟨k, hk⟩ := IsIntegrallyClosed.isIntegral_iff.mp h3
  exact ⟨k, by rw [← hk]; simp⟩

theorem udd_tie_even (N : ℕ) (hN : Even N) (T : ℤ) (j : ℕ)
    (htie : Int.fract ((T : ℝ) * Real.sin (Real.pi * j / (2 * (N + 1))) ^ 2) = 1 / 2) :
    Even T := by
  set a : ℝ := Real.pi * j / (2 * (N + 1)) with ha
  set s : ℝ := Real.sin a ^ 2 with hs
  obtain ⟨m, hm⟩ : ∃ m : ℤ, (T : ℝ) * s = m + 1 / 2 := by
    refine ⟨⌊(T : ℝ) * s⌋, ?_⟩
    have := Int.floor_add_fract ((T : ℝ) * s)
    rw [htie] at this
    linarith
  have hT0 : T ≠ 0 := by
    intro h0
    rw [h0] at hm
    push_cast at hm
    have h2m : (2 * m : ℝ) = -1 := by linarith
    have : (2 * m : ℤ) = -1 := by exact_mod_cast h2m
    omega
  have hTr : (T : ℝ) ≠ 0 := Int.cast_ne_zero.mpr hT0
  have hNne : ((N : ℝ) + 1) ≠ 0 := by positivity
  have hθa : Real.pi * j / (N + 1) = 2 * a := by
    rw [ha]
    field_simp
    ring
  have hcos : Real.cos (Real.pi * j / (N + 1)) = 1 - 2 * s := by
    rw [hθa, Real.cos_two_mul', Real.cos_sq', hs]
    ring
  set q : ℚ := 2 - (4 * m + 2) / (T : ℚ) with hq
  have hqr : (q : ℝ) = 2 - 4 * s := by
    rw [hq]
    push_cast
    field_simp
    linear_combination (4 : ℝ) * hm
  have hq2 : (q : ℝ) = 2 * Real.cos (Real.pi * j / (N + 1)) := by
    rw [hqr, hcos]
    ring
  have hq2' : (q : ℝ) = 2 * Real.cos (Real.pi * j / ((N + 1 : ℕ) : ℝ)) := by
    push_cast
    exact hq2
  obtain ⟨k, hk⟩ := rat_two_cos_pi_div_is_int j (N + 1) (by omega) q hq2'
  have hkr : (k : ℝ) = 2 - 4 * s := by
    rw [← hqr, ← hk]
    norm_cast
  have hklo : -2 ≤ k := by
    have h1 := Real.neg_one_le_cos (Real.pi * j / (N + 1))
    have hkr2 : (k : ℝ) = 2 * Real.cos (Real.pi * j / (N + 1)) := by
      rw [hkr, hcos]; ring
    have : (-2 : ℝ) ≤ (k : ℝ) := by rw [hkr2]; linarith
    exact_mod_cast this
  have hkhi : k ≤ 2 := by
    have h1 := Real.cos_le_one (Real.pi * j / (N + 1))
    have hkr2 : (k : ℝ) = 2 * Real.cos (Real.pi * j / (N + 1)) := by
      rw [hkr, hcos]; ring
    have : (k : ℝ) ≤ 2 := by rw [hkr2]; linarith
    exact_mod_cast this
  have hTk : T * (2 - k) = 4 * m + 2 := by
    have hreal : (T : ℝ) * (2 - k) = 4 * m + 2 := by
      rw [hkr]
      linear_combination (4 : ℝ) * hm
    exact_mod_cast hreal
  interval_cases k
  · -- k = -2 : 4T = 4m + 2, impossible
    rw [Int.even_iff]
    omega
  · -- k = -1 : 3T = 4m + 2, so T is even
    rw [Int.even_iff]
    omega
  · -- k = 0 : s = 1/2, cos = 0, excluded because N is even
    exfalso
    have hs2 : s = 1 / 2 := by
      have : (0 : ℝ) = 2 - 4 * s := by exact_mod_cast hkr
      linarith
    have hcos0 : Real.cos (Real.pi * j / (N + 1)) = 0 := by
      rw [hcos, hs2]
      ring
    rw [Real.cos_eq_zero_iff] at hcos0
    obtain ⟨l, hl⟩ := hcos0
    have hπ : Real.pi ≠ 0 := Real.pi_ne_zero
    have key : 2 * (j : ℝ) = (2 * (l : ℝ) + 1) * ((N : ℝ) + 1) := by
      field_simp at hl
      nlinarith [hl, Real.pi_pos]
    have hj : 2 * (j : ℤ) = (2 * l + 1) * ((N : ℤ) + 1) := by exact_mod_cast key
    obtain ⟨u, hu⟩ := hN
    have hodd : Odd ((2 * l + 1) * ((N : ℤ) + 1)) := by
      refine Odd.mul ⟨l, by ring⟩ ⟨(u : ℤ), ?_⟩
      have : (N : ℤ) = u + u := by exact_mod_cast hu
      omega
    rw [← hj] at hodd
    exact (Int.not_odd_iff_even.mpr ⟨(j : ℤ), by ring⟩) hodd
  · -- k = 1 : T = 4m + 2, so T is even
    rw [Int.even_iff]
    omega
  · -- k = 2 : 0 = 4m + 2, impossible
    rw [Int.even_iff]
    omega

/-- `udd.py` lines 86–88: cumulative breakpoint
`t_i = int(round(udd_duration * sin(pi * i / (2 * (N + 1))) ** 2))`,
each absolute breakpoint rounded once, independently. -/
noncomputable def uddBreakpoint (N : ℕ) (T : ℤ) (i : ℕ) : ℤ :=
  pyround ((T : ℝ) * Real.sin (Real.pi * (i : ℝ) / (2 * ((N : ℝ) + 1))) ^ 2)

/-- `udd.py` line 90: the gap schedule
`tau_steps = [t_i[i] - t_i[i-1] for i in range(1, N + 2)]`. -/
noncomputable def uddTauSteps (N : ℕ) (T : ℤ) : List ℤ :=
  (List.range (N + 1)).map (fun i => uddBreakpoint N T (i + 1) - uddBreakpoint N T i)

/-- `udd.py` line 123: the rounding carry
`remainder = udd_duration - sum(tau_steps)`. -/
noncomputable def uddRemainder (N : ℕ) (T : ℤ) : ℤ := T - (uddTauSteps N T).sum

theorem uddBreakpoint_zero (N : ℕ) (T : ℤ) : uddBreakpoint N T 0 = 0 := by
  have h0 : (T : ℝ) * Real.sin (Real.pi * ((0 : ℕ) : ℝ) / (2 * ((N : ℝ) + 1))) ^ 2
      = ((0 : ℤ) : ℝ) := by
    simp
  rw [uddBreakpoint, h0, pyround_intCast]

theorem uddBreakpoint_last (N : ℕ) (T : ℤ) : uddBreakpoint N T (N + 1) = T := by
  have hNne : ((N : ℝ) + 1) ≠ 0 := by positivity
  have hangle : Real.pi * (((N + 1 : ℕ)) : ℝ) / (2 * ((N : ℝ) + 1)) = Real.pi / 2 := by
    push_cast
    field_simp
    ring
  have h1 : (T : ℝ) * Real.sin (Real.pi * (((N + 1 : ℕ)) : ℝ) / (2 * ((N : ℝ) + 1))) ^ 2
      = ((T : ℤ) : ℝ) := by
    rw [hangle, Real.sin_pi_div_two]
    ring
  rw [uddBreakpoint, h1, pyround_intCast]

theorem uddBreakpoint_reflect (N : ℕ) (hN : Even N) (T : ℤ) (i : ℕ) (hi : i ≤ N + 1) :
    uddBreakpoint N T (N + 1 - i) = T - uddBreakpoint N T i := by
  unfold uddBreakpoint
  have hNne : ((N : ℝ) + 1) ≠ 0 := by positivity
  have hcast : ((N + 1 - i : ℕ) : ℝ) = (N : ℝ) + 1 - (i : ℝ) := by
    push_cast [hi]
    ring
  have hangle : Real.pi * ((N + 1 - i : ℕ) : ℝ) / (2 * ((N : ℝ) + 1))
      = Real.pi / 2 - Real.pi * (i : ℝ) / (2 * ((N : ℝ) + 1)) := by
    rw [hcast]
    field_simp
    ring
  rw [hangle, Real.sin_pi_div_two_sub]
  have hswap : (T : ℝ) * Real.cos (Real.pi * (i : ℝ) / (2 * ((N : ℝ) + 1))) ^ 2
      = (T : ℝ) - (T : ℝ) * Real.sin (Real.pi * (i : ℝ) / (2 * ((N : ℝ) + 1))) ^ 2 := by
    rw [Real.cos_sq']
    ring
  rw [hswap]
  exact pyround_int_sub T _ (fun htie => udd_tie_even N hN T i htie)

theorem list_sum_range_sub (f : ℕ → ℤ) (n : ℕ) :
    ((List.range n).map (fun i => f (i + 1) - f i)).sum = f n - f 0 := by
  induction n with
  | zero => simp
  | succ k ih =>
      rw [List.range_succ, List.map_append, List.sum_append, ih]
      simp

theorem uddTauSteps_length (N : ℕ) (T : ℤ) : (uddTauSteps N T).length = N + 1 := by
  simp [uddTauSteps]

theorem uddTauSteps_sum (N : ℕ) (T : ℤ) : (uddTauSteps N T).sum = T := by
  unfold uddTauSteps
  rw [list_sum_range_sub (uddBreakpoint N T) (N + 1)]
  rw [uddBreakpoint_last, uddBreakpoint_zero]
  ring

theorem uddRemainder_zero (N : ℕ) (T : ℤ) : uddRemainder N T = 0 := by
  rw [uddRemainder, uddTauSteps_sum]
  ring

theorem uddTauSteps_reverse (N : ℕ) (hN : Even N) (T : ℤ) :
    (uddTauSteps N T).reverse = uddTauSteps N T := by
  apply List.ext_getElem
  · simp
  · intro k h1 h2
    have hk : k < N + 1 := by
      have := uddTauSteps_length N T
      omega
    simp only [List.getElem_reverse, uddTauSteps, List.getElem_map, List.getElem_range,
      List.length_map, List.length_range]
    have hidx : N + 1 - 1 - k = N - k := by omega
    rw [hidx]
    have e1 : N - k + 1 = N + 1 - k := by omega
    have e2 : N - k = N + 1 - (k + 1) := by omega
    rw [e1, e2]
    rw [uddBreakpoint_reflect N hN T k (by omega),
        uddBreakpoint_reflect N hN T (k + 1) (by omega)]
    ring

/-! ### Claim theorems -/

/-- **C1.** For every idle period the rewriter touches (CPMG, UDD with its
gap schedule summing to the per-cycle idle budget, and CDD, at any order),
the total duration of the emitted operations — leading idle, plus per
repetition the cycle's gap idles and pulse durations, plus trailing
idle — equals the original idle duration exactly. -/
theorem C1_duration_conservation :
    (∀ xd tau_c p d : ℤ, ∀ a : ℕ, 0 < tau_c →
        totalDuration xd p (CPMG.rewriteDelay tau_c p d a) = d) ∧
    (∀ xd tau_c p d : ℤ, ∀ N a : ℕ, ∀ ts : List ℤ, 0 < tau_c →
        ts.length = N + 1 → ts.sum = tau_c - N * p →
        totalDuration xd p (UDD.rewriteDelay tau_c p N ts d a) = d) ∧
    (∀ tau_step xd yd d : ℤ, ∀ N a : ℕ, 1 ≤ N →
        0 < CDD.tau_cFor N tau_step xd yd →
        totalDuration xd yd (CDD.rewriteDelay N tau_step xd yd d a) = d) ∧
    (∀ xd tau_c p d : ℤ, ∀ N a : ℕ, 0 < tau_c →
        totalDuration xd p
          (UDD.rewriteDelay tau_c p N (uddTauSteps N (tau_c - N * p)) d a) = d) :=
  ⟨fun xd tau_c p d a h => cpmg_rewrite_total xd tau_c p d a h,
   fun xd tau_c p d N a ts h hl hs => udd_rewrite_total xd tau_c p d N ts a h hl hs,
   fun tau_step xd yd d N a h1 h2 => cdd_rewrite_total tau_step xd yd d N a h1 h2,
   fun xd tau_c p d N a h =>
     udd_rewrite_total xd tau_c p d N (uddTauSteps N (tau_c - N * p)) a h
       (uddTauSteps_length N (tau_c - N * p)) (uddTauSteps_sum N (tau_c - N * p))⟩

/-- Witness for C1 at the concrete calibrations of the test suite. -/
theorem C1_duration_conservation_witness :
    ((0 : ℤ) < 2000 ∧ totalDuration 0 320 (CPMG.rewriteDelay 2000 320 2500 2) = 2500) ∧
    (([340, 680, 340] : List ℤ).length = 2 + 1 ∧
      ([340, 680, 340] : List ℤ).sum = 2000 - 2 * 320 ∧
      totalDuration 0 320 (UDD.rewriteDelay 2000 320 2 [340, 680, 340] 2500 2) = 2500) ∧
    ((0 : ℤ) < CDD.tau_cFor 1 10 50 50 ∧
      totalDuration 50 50 (CDD.rewriteDelay 1 10 50 50 1000 2) = 1000) ∧
    ((0 : ℤ) < 2000 ∧
      totalDuration 0 320
        (UDD.rewriteDelay 2000 320 2 (uddTauSteps 2 (2000 - 2 * 320)) 2500 2) = 2500) :=
  ⟨⟨by decide, C1_duration_conservation.1 0 2000 320 2500 2 (by decide)⟩,
   ⟨by decide, by decide,
    C1_duration_conservation.2.1 0 2000 320 2500 2 2 [340, 680, 340]
      (by decide) (by decide) (by decide)⟩,
   ⟨by decide, C1_duration_conservation.2.2.1 10 50 50 1000 1 2 (by decide) (by decide)⟩,
   ⟨by decide, C1_duration_conservation.2.2.2 0 2000 320 2500 2 2 (by decide)⟩⟩

/-- **C2.** The non-divisible leftover is split as
`leading = leftover div 2` and `trailing = leading + leftover mod 2`:
the parity unit always lands on the trailing idle, never the leading one,
for both the CPMG and the CDD expansion (and the planner is a pure
function, so reruns on the same inputs place it identically). -/
theorem C2_parity_on_trailing :
    (∀ tau_c p d : ℤ,
        leadingIdle (CPMG.expand tau_c p d) = CPMG.leftover tau_c p d / 2 ∧
        trailingIdle (CPMG.expand tau_c p d)
          = CPMG.leftover tau_c p d / 2 + CPMG.leftover tau_c p d % 2) ∧
    (∀ tau_step xd yd d : ℤ, ∀ N : ℕ, 1 ≤ N →
        0 < CDD.tau_cFor N tau_step xd yd → CDD.tau_cFor N tau_step xd yd ≤ d →
        leadingIdle (CDD.expand N tau_step xd yd d)
            = CDD.leftover N tau_step xd yd d / 2 ∧
        trailingIdle (CDD.expand N tau_step xd yd d)
          = CDD.leftover N tau_step xd yd d / 2 + CDD.leftover N tau_step xd yd d % 2) :=
  ⟨fun tau_c p d => ⟨cpmg_leading tau_c p d, cpmg_trailing tau_c p d⟩,
   fun tau_step xd yd d N h1 h2 h3 =>
     ⟨cdd_leading tau_step xd yd d N h1 h2 h3, cdd_trailing tau_step xd yd d N h1 h2 h3⟩⟩

/-- Witness for C2 at an odd leftover (2501 - 2000 = 501 for CPMG:
leading 250, trailing 251). -/
theorem C2_parity_on_trailing_witness :
    (leadingIdle (CPMG.expand 2000 320 2501) = CPMG.leftover 2000 320 2501 / 2 ∧
      trailingIdle (CPMG.expand 2000 320 2501)
        = CPMG.leftover 2000 320 2501 / 2 + CPMG.leftover 2000 320 2501 % 2) ∧
    ((1 : ℕ) ≤ 1 ∧ (0 : ℤ) < CDD.tau_cFor 1 10 50 50 ∧ CDD.tau_cFor 1 10 50 50 ≤ 1001 ∧
      leadingIdle (CDD.expand 1 10 50 50 1001) = CDD.leftover 1 10 50 50 1001 / 2 ∧
      trailingIdle (CDD.expand 1 10 50 50 1001)
        = CDD.leftover 1 10 50 50 1001 / 2 + CDD.leftover 1 10 50 50 1001 % 2) :=
  ⟨C2_parity_on_trailing.1 2000 320 2501,
   ⟨by decide, by decide, by decide,
    C2_parity_on_trailing.2 10 50 50 1001 1 (by decide) (by decide) (by decide)⟩⟩

/-- **C3.** `build_sequence` satisfies `S(1) = [X, Y, X, Y]` and
`S(k) = X·S(k−1)·Y·S(k−1)·X·S(k−1)·Y·S(k−1)` for `k > 1`; hence for every
order `k` in `2..5` the length is `4·|S(k−1)| + 4`, with `|S(1)| = 4`.
(The same `build_sequence` appears verbatim in `cdd.py` lines 55–63 and
`ncddpass.py` lines 42–50.) -/
theorem C3_cdd_recursion_and_length :
    CDD.buildSequence 1 = [DDGate.x, DDGate.y, DDGate.x, DDGate.y] ∧
    (∀ k : ℕ, 2 ≤ k →
        CDD.buildSequence k
          = [DDGate.x] ++ CDD.buildSequence (k - 1) ++ [DDGate.y] ++ CDD.buildSequence (k - 1)
              ++ [DDGate.x] ++ CDD.buildSequence (k - 1) ++ [DDGate.y]
              ++ CDD.buildSequence (k - 1)) ∧
    (∀ k : ℕ, 2 ≤ k → k ≤ 5 →
        (CDD.buildSequence k).length = 4 * (CDD.buildSequence (k - 1)).length + 4) ∧
    (CDD.buildSequence 1).length = 4 := by
  have hrec : ∀ k : ℕ, 2 ≤ k →
      CDD.buildSequence k
        = [DDGate.x] ++ CDD.buildSequence (k - 1) ++ [DDGate.y] ++ CDD.buildSequence (k - 1)
            ++ [DDGate.x] ++ CDD.buildSequence (k - 1) ++ [DDGate.y]
            ++ CDD.buildSequence (k - 1) := by
    intro k hk
    match k, hk with
    | m + 2, _ =>
        show CDD.buildSequence (m + 2) = _
        simp [CDD.buildSequence]
  refine ⟨rfl, hrec, ?_, rfl⟩
  intro k hk _
  rw [hrec k hk]
  simp [List.length_append]
  omega

/-- Witness for C3 at `k = 3` (`|S(2)| = 20`, `|S(3)| = 84`). -/
theorem C3_cdd_recursion_and_length_witness :
    (2 ≤ 3 ∧ 3 ≤ 5 ∧
      (CDD.buildSequence 3).length = 4 * (CDD.buildSequence 2).length + 4) ∧
    CDD.buildSequence 2
      = [DDGate.x] ++ CDD.buildSequence 1 ++ [DDGate.y] ++ CDD.buildSequence 1
          ++ [DDGate.x] ++ CDD.buildSequence 1 ++ [DDGate.y] ++ CDD.buildSequence 1 :=
  ⟨⟨by decide, by decide, C3_cdd_recursion_and_length.2.2.1 3 (by decide) (by decide)⟩,
   C3_cdd_recursion_and_length.2.1 2 (by decide)⟩

/-- **C4 failing input.**  `cpmg.py` and `udd.py` do pass short or
ineligible idle periods through unchanged, but the 2018 snapshot
`uddpass.py` never consults the ancestor count: at a delay of 2500 with
only one ancestor (no preceding operation) it inserts pulses instead of
passing the idle through. -/
theorem C4_uddpass_expands_ineligible_idle :
    CPMG.rewriteDelay 2000 320 2500 1 = [Op.delay 2500] ∧
    CPMG.rewriteDelay 2000 320 1500 2 = [Op.delay 1500] ∧
    UDD.rewriteDelay 2000 320 2 [340, 680, 340] 2500 1 = [Op.delay 2500] ∧
    UDDPass2018.rewriteDelay 2000 320 2 [340, 680, 340] 2500 1
      = [Op.delay 250, Op.delay 340, Op.gate DDGate.y, Op.delay 680,
         Op.gate DDGate.y, Op.delay 340, Op.delay 250] := by
  refine ⟨by decide, by decide, by decide, by decide⟩

/-- **C5 counterexample.**  At the claim's numbers — idle 2000, `tau_c`
2000, calibrated pulse 340 — `cpmg.py` emits
`Delay(0), Delay(330), Y, Delay(660), Y, Delay(330), Delay(0)`, not the
claimed `Delay(250), Delay(340), Y, Delay(680), Y, Delay(340), Delay(250)`
(whose durations also cannot total 2000). -/
theorem C5_counterexample :
    CPMG.rewriteDelay 2000 340 2000 2
        = [Op.delay 0, Op.delay 330, Op.gate DDGate.y, Op.delay 660,
           Op.gate DDGate.y, Op.delay 330, Op.delay 0] ∧
    CPMG.rewriteDelay 2000 340 2000 2
        ≠ [Op.delay 250, Op.delay 340, Op.gate DDGate.y, Op.delay 680,
           Op.gate DDGate.y, Op.delay 340, Op.delay 250] := by
  refine ⟨by decide, by decide⟩

/-- **C5 amended.**  For an idle of 2500 time-steps (as in
`test_cpmg.py::test_cpmg_simple`), `tau_c = 2000`, and a calibrated
Y-pulse of 320 time-steps, the eligible delay expands into exactly
`Delay(250), Delay(340), Y, Delay(680), Y, Delay(340), Delay(250)`,
whose durations (gaps plus two 320-step pulses) total 2500. -/
theorem C5_amended_simple_scenario :
    CPMG.rewriteDelay 2000 320 2500 2
      = [Op.delay 250, Op.delay 340, Op.gate DDGate.y, Op.delay 680,
         Op.gate DDGate.y, Op.delay 340, Op.delay 250] ∧
    totalDuration 0 320 (CPMG.rewriteDelay 2000 320 2500 2) = 2500 := by
  refine ⟨by decide, by decide⟩

/-- **C7 failing input.**  No family validates the order: CDD's
`build_sequence` diverges for every order `≤ 0` (the recursion can only
stop at `N == 1`), exhausting the interpreter stack instead of raising
`InvalidOrder`, and `UDDPass.__init__` accepts order 0 without error,
yielding the degenerate cycle time `tau_c = 0`. -/
theorem C7_no_invalid_order_error :
    (∀ fuel : ℕ, ∀ n : ℤ, n ≤ 0 → CDD.buildSequenceFuel fuel n = none) ∧
    uddInitTauC 0 none = 0 := by
  constructor
  · intro fuel
    induction fuel with
    | zero => intro n _; rfl
    | succ f ih =>
        intro n hn
        unfold CDD.buildSequenceFuel
        rw [if_neg (by omega), ih (n - 1) (by omega)]
  · rfl

/-- Witness for C7 at order 0 and recursion budget 5. -/
theorem C7_no_invalid_order_error_witness :
    ((0 : ℤ) ≤ 0 ∧ CDD.buildSequenceFuel 5 0 = none) ∧ uddInitTauC 0 none = 0 :=
  ⟨⟨by decide, C7_no_invalid_order_error.1 5 0 (by decide)⟩,
   C7_no_invalid_order_error.2⟩

/-- **C8 failing input.**  With `tau_c = 2000` and a calibrated Y-pulse of
1200 time-steps (one cycle's pulses alone need 2400 > 2000), `cpmg.py`
raises no error: setup silently records the negative budget
`tau_step_total = -400`, and an eligible delay of 2000 is rewritten with
negative-duration idles `Delay(-100)`, `Delay(-200)` instead of failing
with `InsufficientDuration`. -/
theorem C8_no_insufficient_duration_error :
    CPMG.tau_step_total 2000 1200 = -400 ∧
    CPMG.rewriteDelay 2000 1200 2000 2
      = [Op.delay 0, Op.delay (-100), Op.gate DDGate.y, Op.delay (-200),
         Op.gate DDGate.y, Op.delay (-100), Op.delay 0] := by
  refine ⟨by decide, by decide⟩

/-- **C9.** `CDDPass.__init__` (cddpass.py) rejects supplying both a
cycle-duration override and a non-default step delay, at setup, before
`run` is ever invoked; supplying at most one of the two succeeds. -/
theorem C9_conflicting_configuration :
    (∀ c : ℤ, ∀ ts : ℚ, ts ≠ 10 →
        cddpassInitCheck (some c) ts
          = Except.error "Only either tau_c or tau_step can be specified, not both.") ∧
    (∀ ts : ℚ, cddpassInitCheck none ts = Except.ok ()) ∧
    (∀ c : ℤ, cddpassInitCheck (some c) 10 = Except.ok ()) := by
  refine ⟨fun c ts h => ?_, fun ts => ?_, fun c => ?_⟩
  · simp [cddpassInitCheck, h]
  · simp [cddpassInitCheck]
  · simp [cddpassInitCheck]

/-- Witness for C9: `tau_c = 1500` with `tau_step = 7` is rejected;
either alone is accepted. -/
theorem C9_conflicting_configuration_witness :
    ((7 : ℚ) ≠ 10 ∧
      cddpassInitCheck (some 1500) 7
        = Except.error "Only either tau_c or tau_step can be specified, not both.") ∧
    cddpassInitCheck none 7 = Except.ok () ∧
    cddpassInitCheck (some 1500) 10 = Except.ok () :=
  ⟨⟨by decide, C9_conflicting_configuration.1 1500 7 (by decide)⟩,
   C9_conflicting_configuration.2.1 7, C9_conflicting_configuration.2.2 1500⟩

/-- **C10.** On a timeline with no eligible delay whose last predecessor
is a CX gate, the candidate list of `NCDDPass.run`/`NUDDPass.run` is
empty and `min(durations)` fails (Python `ValueError`), so the run
errors out instead of returning the timeline unchanged. -/
theorem C10_context_min_of_empty :
    ∀ nodes : List TLNode,
      (∀ n ∈ nodes, ¬(n.isDelay = true ∧ 1 < n.ancestors ∧ n.predIsCX = true)) →
      ncddDurations nodes = [] ∧
      ncddMinDuration nodes = Except.error "min() arg is an empty sequence" ∧
      nuddDurations nodes = [] ∧
      nuddMinDuration nodes = Except.error "min() arg is an empty sequence" := by
  intro nodes h
  have hemp : nodes.filter contextEligible = [] := by
    rw [List.filter_eq_nil_iff]
    intro n hn
    have hno := h n hn
    simp only [contextEligible, Bool.and_eq_true, decide_eq_true_eq]
    intro hcontra
    exact hno ⟨hcontra.1.1, hcontra.1.2, hcontra.2⟩
  refine ⟨?_, ?_, ?_, ?_⟩ <;>
    simp [ncddDurations, nuddDurations, ncddMinDuration, nuddMinDuration, pyMin, hemp]

/-- Witness for C10: a two-node timeline (one real operation, one delay
that does not follow a CX) has no candidates and the run fails. -/
theorem C10_context_min_of_empty_witness :
    (∀ n ∈ [TLNode.mk false 0 0 false false 0, TLNode.mk true 5000 1 false false 0],
        ¬(n.isDelay = true ∧ 1 < n.ancestors ∧ n.predIsCX = true)) ∧
    ncddMinDuration [TLNode.mk false 0 0 false false 0, TLNode.mk true 5000 1 false false 0]
      = Except.error "min() arg is an empty sequence" ∧
    nuddMinDuration [TLNode.mk false 0 0 false false 0, TLNode.mk true 5000 1 false false 0]
      = Except.error "min() arg is an empty sequence" :=
  ⟨by decide,
   (C10_context_min_of_empty _ (by decide)).2.1,
   (C10_context_min_of_empty _ (by decide)).2.2.2⟩

/-- **C6.** For the UDD family at every even order `N`, the per-lane
non-uniform gap schedule — each sin²-formula breakpoint scaled by the
lane's idle budget `T` and rounded to the nearest integer independently
(Python `round`, ties to even), consecutive differences taken as gaps —
is symmetric front-to-back, and the sum of the gaps equals the allotted
idle budget exactly: the rounding carry is zero, so adding it back keeps
the sum equal to the budget. -/
theorem C6_udd_gap_symmetry_and_sum :
    ∀ (N : ℕ) (T : ℤ), Even N →
      (uddTauSteps N T).reverse = uddTauSteps N T ∧
      (uddTauSteps N T).sum + uddRemainder N T = T ∧
      uddRemainder N T = 0 ∧
      (uddTauSteps N T).sum = T :=
  fun N T hN =>
    ⟨uddTauSteps_reverse N hN T,
     by rw [uddTauSteps_sum, uddRemainder_zero]; ring,
     uddRemainder_zero N T,
     uddTauSteps_sum N T⟩

/-- Witness for C6 at the even orders 2 and 4 with the budget 1360
(the per-cycle idle budget of the CPMG-equivalent order-2 case). -/
theorem C6_udd_gap_symmetry_and_sum_witness :
    (Even 2 ∧ (uddTauSteps 2 1360).reverse = uddTauSteps 2 1360 ∧
      (uddTauSteps 2 1360).sum = 1360) ∧
    (Even 4 ∧ (uddTauSteps 4 1360).reverse = uddTauSteps 4 1360 ∧
      (uddTauSteps 4 1360).sum = 1360) :=
  ⟨⟨by decide, (C6_udd_gap_symmetry_and_sum 2 1360 (by decide)).1,
    (C6_udd_gap_symmetry_and_sum 2 1360 (by decide)).2.2.2⟩,
   ⟨by decide, (C6_udd_gap_symmetry_and_sum 4 1360 (by decide)).1,
    (C6_udd_gap_symmetry_and_sum 4 1360 (by decide)).2.2.2⟩⟩
